import Mathlib

/-!
Verification of the DOCX-to-text/HTML conversion core (`docx_processor.py`,
`server.py`).  Python strings are modelled as `List Char` (a Python `str` is a
sequence of code points), font sizes in points as `ℚ`, and the parsed
document model (the output of the external container parser) as plain
structures.  Fallible byte-parsing is modelled as an `Except` input.
-/

namespace WordParser

/-- Python `\x00-\x08 \x0B \x0C \x0E-\x1F \x7F-\x9F`: the control ranges
removed by `clean_text`'s first `re.sub`. -/
def isCtrl (c : Char) : Bool :=
  (c.toNat ≤ 0x08) || c.toNat == 0x0B || c.toNat == 0x0C ||
  (0x0E ≤ c.toNat && c.toNat ≤ 0x1F) || (0x7F ≤ c.toNat && c.toNat ≤ 0x9F)

/-- The whitespace class used by Python's `\s` regex and `str.split`/`str.strip`
(ASCII whitespace, the extra C0 separators, and the Unicode space characters). -/
def isPySpace (c : Char) : Bool :=
  (0x09 ≤ c.toNat && c.toNat ≤ 0x0D) || c.toNat == 0x20 ||
  (0x1C ≤ c.toNat && c.toNat ≤ 0x1F) || c.toNat == 0x85 || c.toNat == 0xA0 ||
  c.toNat == 0x1680 || (0x2000 ≤ c.toNat && c.toNat ≤ 0x200A) ||
  c.toNat == 0x2028 || c.toNat == 0x2029 || c.toNat == 0x202F ||
  c.toNat == 0x205F || c.toNat == 0x3000

/-- `re.sub(r'\s+', ' ', s)`: each maximal run of whitespace becomes one
space.  The boolean records whether we are inside a whitespace run. -/
def collapseAux : Bool → List Char → List Char
  | _, [] => []
  | inRun, c :: rest =>
    if isPySpace c then
      if inRun then collapseAux true rest else ' ' :: collapseAux true rest
    else c :: collapseAux false rest

/-- `re.sub(r'\s+', ' ', s)` on a whole string. -/
def collapseWs (s : List Char) : List Char := collapseAux false s

/-- Python `str.strip()`: drop leading and trailing whitespace. -/
def pyStrip (s : List Char) : List Char :=
  ((s.dropWhile isPySpace).reverse.dropWhile isPySpace).reverse

/-- Python `str.replace(c, r)` for a single-character pattern. -/
def replaceChar (c : Char) (r : List Char) (s : List Char) : List Char :=
  (s.map (fun x => if x = c then r else [x])).flatten

/-- The five sequential `str.replace` calls of `clean_text`, in source order:
`&` first, then `<`, `>`, `"`, `'`. -/
def escapeHtml (s : List Char) : List Char :=
  replaceChar '\'' "&#39;".data <| replaceChar '"' "&quot;".data <|
    replaceChar '>' "&gt;".data <| replaceChar '<' "&lt;".data <|
      replaceChar '&' "&amp;".data s

/-- The non-escaping front of `clean_text`: strip control characters,
collapse whitespace runs to single spaces, trim the ends. -/
def preClean (s : List Char) : List Char :=
  pyStrip (collapseWs (s.filter (fun c => !isCtrl c)))

/-- `clean_text` from `docx_processor.py`: control-char removal, whitespace
normalisation, trim, then HTML escaping. -/
def clean_text (s : List Char) : List Char :=
  escapeHtml (preClean s)

example : clean_text "  a \t b ".data = "a b".data := by decide
example : clean_text "&".data = "&amp;".data := by decide
example : clean_text (clean_text "&".data) = "&amp;amp;".data := by decide

/-- `len(s.split())`: the number of maximal non-whitespace chunks.  The
boolean records whether the previous character was part of a word. -/
def wordCountAux : Bool → List Char → Nat
  | _, [] => 0
  | inWord, c :: rest =>
    if isPySpace c then wordCountAux false rest
    else (if inWord then 0 else 1) + wordCountAux true rest

/-- Python `len(text.split())`. -/
def wordCount (s : List Char) : Nat := wordCountAux false s

example : wordCount "one two  three".data = 3 := by decide
example : wordCount "".data = 0 := by decide

/-- Paragraph alignment (`WD_ALIGN_PARAGRAPH`). -/
inductive Alignment
  | left | center | right | justify | unspecified
deriving DecidableEq, Repr

/-- A run: a text fragment with a bold flag and an optional font size in
points (`run.font.size.pt`).  `bold = false` covers python-docx's
`None`/`False`, both falsy in `if run.bold`. -/
structure Run where
  text : List Char
  bold : Bool
  fontSize : Option ℚ
deriving DecidableEq, Repr

/-- A paragraph of the parsed document model: its text
(`paragraph.text`), its runs, and its alignment. -/
structure Para where
  text : List Char
  runs : List Run
  alignment : Alignment
deriving DecidableEq, Repr

/-- A table: rows of cell texts (`cell.text`). -/
structure Table where
  rows : List (List (List Char))
deriving DecidableEq, Repr

/-- The parsed document model consumed by the core. -/
structure Doc where
  paragraphs : List Para
  tables : List Table
deriving DecidableEq, Repr

/-- `is_heading` from `docx_processor.py`.  Returns the heading level
1/2/3, or 0 for "not a heading" (the source's integer encoding of
`HeadingLevel`, 0 = NONE).  The run loop accumulates `is_bold`,
`is_large_font` and `max_font_size` exactly as the source does. -/
def is_heading (paragraph : Para) (text : List Char) (base_font_size : ℚ) : Nat :=
  if text.length > 200 then 0
  else
    let word_count := wordCount text
    if word_count > 25 then 0
    else
      let is_centered := paragraph.alignment = Alignment.center
      let acc := paragraph.runs.foldl
        (fun (acc : Bool × Bool × ℚ) run =>
          let b := acc.1 || run.bold
          match run.fontSize with
          | some fs =>
            (b, acc.2.1 || decide (fs > base_font_size + 1), max acc.2.2 fs)
          | none => (b, acc.2.1, acc.2.2))
        (false, false, base_font_size)
      let is_bold := acc.1
      let is_large_font := acc.2.1
      let max_font_size := acc.2.2
      let score : Nat :=
        (if is_bold then 3 else 0) + (if is_large_font then 2 else 0) +
        (if is_centered then 5 else 0) + (if word_count ≤ 10 then 1 else 0)
      if max_font_size > base_font_size + 4 then
        if score ≥ 2 then 1 else 0
      else if max_font_size > base_font_size + 2 then
        if score ≥ 2 then 2 else 0
      else if score ≥ 3 then 3
      else 0

/-- The heading classifier as the specification words it: disqualify long
text, compute the four boolean signals (`isLargeFont` = some run exceeds
`baseline + 1`, `maxFontSize` = max of baseline and observed sizes), the
weighted score, then the ordered ladder with first match winning. -/
def headingSpec (paragraph : Para) (text : List Char) (baseline : ℚ) : Nat :=
  if text.length > 200 ∨ wordCount text > 25 then 0
  else
    let isBold := paragraph.runs.any (·.bold)
    let isLargeFont := paragraph.runs.any fun r =>
      match r.fontSize with
      | some fs => decide (fs > baseline + 1)
      | none => false
    let isCentered := paragraph.alignment = Alignment.center
    let maxFontSize := (paragraph.runs.filterMap Run.fontSize).foldl max baseline
    let score : Nat :=
      (if isBold then 3 else 0) + (if isLargeFont then 2 else 0) +
      (if isCentered then 5 else 0) + (if wordCount text ≤ 10 then 1 else 0)
    if maxFontSize > baseline + 4 then (if score ≥ 2 then 1 else 0)
    else if maxFontSize > baseline + 2 then (if score ≥ 2 then 2 else 0)
    else if score ≥ 3 then 3
    else 0

/-- The run loop of `is_heading` computes "any run bold", "any run larger
than baseline + 1", and the running maximum of the observed sizes. -/
theorem isHeading_foldl (base : ℚ) (runs : List Run) (b l : Bool) (m : ℚ) :
    runs.foldl (fun (acc : Bool × Bool × ℚ) run =>
        let b' := acc.1 || run.bold
        match run.fontSize with
        | some fs => (b', acc.2.1 || decide (fs > base + 1), max acc.2.2 fs)
        | none => (b', acc.2.1, acc.2.2)) (b, l, m)
      = (b || runs.any (·.bold),
         l || runs.any (fun r => match r.fontSize with
             | some fs => decide (fs > base + 1) | none => false),
         (runs.filterMap Run.fontSize).foldl max m) := by
  induction runs generalizing b l m with
  | nil => simp
  | cons r rest ih =>
    cases h : r.fontSize with
    | none =>
      simp [List.foldl_cons, h, ih, Bool.or_assoc, List.any_cons, List.filterMap_cons]
    | some fs =>
      simp [List.foldl_cons, h, ih, Bool.or_assoc, List.any_cons, List.filterMap_cons]

/-- C1: for every paragraph, sanitized text and baseline, `is_heading`
computes exactly the specified classifier: the length/word-count
disqualifiers, the score `3·isBold + 2·isLargeFont + 5·isCentered +
1·(wordCount ≤ 10)` with `isLargeFont` meaning some run exceeds
`baseline + 1`, and the ordered first-match-wins ladder (`> baseline + 4` →
H1 iff score ≥ 2, else `> baseline + 2` → H2 iff score ≥ 2, else H3 iff
score ≥ 3, else NONE) — in particular a huge-font paragraph with score < 2
is NONE, never demoted to H2/H3. -/
theorem heading_classification_matches_spec (p : Para) (text : List Char) (base : ℚ) :
    is_heading p text base = headingSpec p text base := by
  unfold is_heading headingSpec
  by_cases h1 : text.length > 200
  · simp [h1]
  · by_cases h2 : wordCount text > 25
    · simp [h1, h2]
    · simp only [h1, h2, or_self, if_false, if_neg, not_false_iff]
      rw [isHeading_foldl]
      simp [h1, h2]

/-- Python `f'{n:02d}'`: decimal digits left-padded with `'0'` to width 2. -/
def pad2 (n : Nat) : List Char :=
  let d := Nat.toDigits 10 n
  if d.length < 2 then '0' :: d else d

example : pad2 1 = "01".data := by decide
example : pad2 42 = "42".data := by decide
example : pad2 123 = "123".data := by decide

/-- Python `str.startswith(pre)`. -/
def startsWith (pre s : List Char) : Bool := pre.isPrefixOf s

/-- `f'<h{k}>{text}</h{k}>'` for a single digit `k`. -/
def hTag (level : Char) (text : List Char) : List Char :=
  '<' :: 'h' :: level :: '>' :: (text ++ '<' :: '/' :: 'h' :: level :: ['>'])

/-- `f'<p{n:02d}>{text}</p{n:02d}>'`. -/
def pTag (n : Nat) (text : List Char) : List Char :=
  '<' :: 'p' :: (pad2 n ++ '>' :: (text ++ '<' :: '/' :: 'p' :: (pad2 n ++ ['>'])))

/-- `process_paragraph` from `docx_processor.py`: headings become
`<h1>`/`<h2>`/`<h3>` elements (an H1-classified paragraph is demoted to
`<h2>` once `h1_used` is set), everything else a numbered `<pNN>` element. -/
def process_paragraph (paragraph : Para) (text : List Char) (base_font_size : ℚ)
    (paragraph_counter : Nat) (h1_used : Bool) : List Char :=
  let heading_level := is_heading paragraph text base_font_size
  if heading_level > 0 then
    if heading_level = 1 ∧ ¬h1_used then hTag '1' text
    else if heading_level = 1 then hTag '2' text
    else if heading_level = 2 then hTag '2' text
    else hTag '3' text
  else pTag paragraph_counter text

/-- The paragraph loop of `process_docx_file`: skip paragraphs that are
empty after `strip()` or after `clean_text`, otherwise render and thread
`paragraph_counter`/`h1_used` exactly as the source's `if`/`elif` on the
element's prefix does. -/
def processParas (base : ℚ) : List Para → Nat → Bool → List (List Char)
  | [], _, _ => []
  | p :: rest, paragraph_counter, h1_used =>
    let text := pyStrip p.text
    if text = [] then processParas base rest paragraph_counter h1_used
    else
      let cleaned := clean_text text
      if cleaned = [] then processParas base rest paragraph_counter h1_used
      else
        let element := process_paragraph p cleaned base paragraph_counter h1_used
        if element = [] then processParas base rest paragraph_counter h1_used
        else
          let h1_used' := if startsWith ['<', 'h', '1', '>'] element then true else h1_used
          let counter' :=
            if startsWith ['<', 'h', '1', '>'] element then paragraph_counter
            else if startsWith ['<', 'p'] element then paragraph_counter + 1
            else paragraph_counter
          element :: processParas base rest counter' h1_used'

/-- The dictionary returned by `analyze_font_sizes`. -/
structure FontStats where
  base : ℚ
  min : ℚ
  max : ℚ
  all : List ℚ
deriving DecidableEq, Repr

/-- One step of `size_counts[size] = size_counts.get(size, 0) + 1` on an
insertion-ordered dictionary, modelled as an association list: a new key is
appended at the end, an existing key is bumped in place. -/
def bumpCount : List (ℚ × Nat) → ℚ → List (ℚ × Nat)
  | [], s => [(s, 1)]
  | (k, v) :: rest, s =>
    if k = s then (k, v + 1) :: rest else (k, v) :: bumpCount rest s

/-- Python `max(items, key=lambda x: x[1])`: scan left to right, replace the
current best only on a strictly greater key, so the first maximal item wins. -/
def maxBySnd (p : ℚ × Nat) (rest : List (ℚ × Nat)) : ℚ × Nat :=
  rest.foldl (fun best q => if q.2 > best.2 then q else best) p

/-- The collection loop of `analyze_font_sizes`: every run's size, in a
single left-to-right scan of paragraphs then runs, skipping runs without one. -/
def collectSizes (document : Doc) : List ℚ :=
  (document.paragraphs.map (fun p => p.runs.filterMap Run.fontSize)).flatten

/-- `analyze_font_sizes` from `docx_processor.py`: the most frequent size
(dict iteration order = first-occurrence order, `max` keeps the first
maximal item) as `base`, plus min/max/all; defaults `12, 12, 12, []` when no
run declares a size.  The inner `[]` branch is unreachable: folding
`bumpCount` over a nonempty list never yields an empty dictionary. -/
def analyze_font_sizes (document : Doc) : FontStats :=
  match collectSizes document with
  | [] => ⟨12, 12, 12, []⟩
  | f :: fs =>
    match (f :: fs).foldl bumpCount [] with
    | [] => ⟨12, 12, 12, []⟩
    | c :: cs => ⟨(maxBySnd c cs).1, fs.foldl min f, fs.foldl max f, f :: fs⟩

/-- One cell of `extract_tables_as_html`: `<th>`/`<td>` by row index,
cleaned text inside, an empty tagged cell for a cell empty after `strip()`. -/
def renderCellSrc (row_idx : Nat) (cellText : List Char) : List Char :=
  let cell_text := pyStrip cellText
  let tag := if row_idx = 0 then "th".data else "td".data
  if cell_text ≠ [] then
    '<' :: (tag ++ '>' :: (clean_text cell_text ++ '<' :: '/' :: (tag ++ ['>'])))
  else '<' :: (tag ++ '>' :: '<' :: '/' :: (tag ++ ['>']))

/-- The row loop of `extract_tables_as_html` (`for row_idx, row in
enumerate(table.rows)`): render each row's cells, wrap non-empty cell lists
in `<tr>`, skip rows with no cells. -/
def rowsHtmlAux : Nat → List (List (List Char)) → List (List Char)
  | _, [] => []
  | row_idx, row :: rest =>
    let cells_html := row.map (renderCellSrc row_idx)
    if cells_html = [] then rowsHtmlAux (row_idx + 1) rest
    else ("<tr>".data ++ cells_html.flatten ++ "</tr>".data) :: rowsHtmlAux (row_idx + 1) rest

/-- `extract_tables_as_html` from `docx_processor.py`: each table with at
least one rendered row is wrapped in `<table>`, tables are joined with no
separator, no tables gives the empty string. -/
def extract_tables_as_html (tables : List Table) : List Char :=
  if tables = [] then []
  else
    (tables.filterMap (fun t =>
      let rows_html := rowsHtmlAux 0 t.rows
      if rows_html = [] then none
      else some ("<table>".data ++ rows_html.flatten ++ "</table>".data))).flatten

/-- `process_docx_file` from `docx_processor.py`.  The byte-parsing
collaborator (`Document(BytesIO(...))`) is modelled by the `Except` input;
its failure is re-raised wrapped, exactly as the source's `except` clause
re-raises. -/
def process_docx_file (input : Except (List Char) Doc) : Except (List Char) (List Char) :=
  match input with
  | .error e => .error ("Ошибка при обработке DOCX файла: ".data ++ e)
  | .ok document =>
    let base_font_size := (analyze_font_sizes document).base
    let html_elements := processParas base_font_size document.paragraphs 1 false
    let table_html := extract_tables_as_html document.tables
    .ok ((html_elements ++ if table_html = [] then [] else [table_html]).flatten)

/-- The dictionary returned by `get_document_structure` on success. -/
structure DocStats where
  paragraphs : Nat
  headings : Nat
  tables : Nat
  font_sizes : FontStats
deriving DecidableEq, Repr

/-- The result of `get_document_structure`: either the stats dictionary or
the `{'error': str(e)}` dictionary — never a raised exception. -/
inductive StructResult
  | err (msg : List Char)
  | ok (stats : DocStats)
deriving DecidableEq, Repr

/-- The counting loop of `get_document_structure`: paragraphs non-empty
after `strip()` are classified on their *stripped* text and counted as
heading (`is_heading ≠ 0`, Python truthiness) or body paragraph. -/
def countsLoop (base : ℚ) : List Para → Nat × Nat → Nat × Nat
  | [], acc => acc
  | p :: rest, (pc, hc) =>
    let text := pyStrip p.text
    if text = [] then countsLoop base rest (pc, hc)
    else if is_heading p text base ≠ 0 then countsLoop base rest (pc, hc + 1)
    else countsLoop base rest (pc + 1, hc)

/-- `get_document_structure` from `docx_processor.py`: the whole body is
wrapped in `try/except Exception`, which returns `{'error': str(e)}`
instead of raising; only the byte-parsing step (the `Except` input) can
raise. -/
def get_document_structure (input : Except (List Char) Doc) : StructResult :=
  match input with
  | .error e => .err e
  | .ok document =>
    let font_sizes := analyze_font_sizes document
    let counts := countsLoop font_sizes.base document.paragraphs (0, 0)
    .ok ⟨counts.1, counts.2, document.tables.length, font_sizes⟩

/-- Python `sep.join(parts)`. -/
def joinSep (sep : List Char) : List (List Char) → List Char
  | [] => []
  | [x] => x
  | x :: y :: xs => x ++ sep ++ joinSep sep (y :: xs)

/-- Modelled from the spec: `sanitize(raw, escapeHtml)` (§4.1).  The source's
`clean_text` always escapes; the plain-text conversion path (absent from the
sources, see `process_docx_with_tables`) needs the non-escaping variant, so
the `escapeHtml = false` branch follows the spec's words: remove control
characters, collapse whitespace runs to one space, trim. -/
def sanitize (raw : List Char) (escHtml : Bool) : List Char :=
  let t := pyStrip (collapseWs (raw.filter (fun c => !isCtrl c)))
  if escHtml then escapeHtml t else t

/-- Modelled from the spec: `extractPlainText` (§4.4 plain-text mode, §4.6) —
the plain-text conversion is absent from the sources (`server.py` calls
`process_docx_with_tables`, which no source file defines).  Every non-empty
sanitized paragraph becomes one output line; lines are joined with a blank
line (two newlines). -/
def extractPlainText (document : Doc) : List Char :=
  joinSep "\n\n".data (document.paragraphs.filterMap fun p =>
    let t := sanitize p.text false
    if t = [] then none else some t)

/-- Modelled from the spec: text-mode table rendering (§4.5) — absent from
the sources, which only render tables as HTML.  Cells in a row joined with
`" | "` (empty cells omitted), rows joined with a newline (a row with no
non-empty cells contributes nothing), tables joined with a blank line (a
table with no rows contributes nothing). -/
def tableTextBlock (tables : List Table) : List Char :=
  joinSep "\n\n".data (tables.filterMap fun t =>
    let rows := t.rows.filterMap fun row =>
      let cells := row.filterMap fun cell =>
        let c := sanitize cell false
        if c = [] then none else some c
      if cells = [] then none else some (joinSep " | ".data cells)
    if rows = [] then none else some (joinSep "\n".data rows))

/-- Modelled from the spec: `process_docx_with_tables` /
`extractPlainTextWithTables` (§4.6) — called from `server.py` but defined in
no source file.  Plain-text paragraph block, then the text-mode table block,
joined by the literal separator `"\n\n---\n\n"`; if either block is empty,
only the non-empty one is emitted. -/
def process_docx_with_tables (document : Doc) : List Char :=
  let textBlock := extractPlainText document
  let tablesBlock := tableTextBlock document.tables
  if textBlock = [] then tablesBlock
  else if tablesBlock = [] then textBlock
  else textBlock ++ "\n\n---\n\n".data ++ tablesBlock

/-- C6: the plain-text-with-tables conversion joins the paragraph block and
the table block with the literal `"\n\n---\n\n"`; when either block is empty
only the other is returned with no dangling separator, and when both are
empty the result is the empty string. -/
theorem plain_text_with_tables_separator (document : Doc) :
    (extractPlainText document = [] → tableTextBlock document.tables = [] →
      process_docx_with_tables document = []) ∧
    (extractPlainText document = [] →
      process_docx_with_tables document = tableTextBlock document.tables) ∧
    (tableTextBlock document.tables = [] →
      process_docx_with_tables document = extractPlainText document) ∧
    (extractPlainText document ≠ [] → tableTextBlock document.tables ≠ [] →
      process_docx_with_tables document =
        extractPlainText document ++ "\n\n---\n\n".data ++ tableTextBlock document.tables) := by
  refine ⟨fun h1 h2 => ?_, fun h1 => ?_, fun h2 => ?_, fun h1 h2 => ?_⟩
  · simp [process_docx_with_tables, h1, h2]
  · simp [process_docx_with_tables, h1]
  · by_cases h1 : extractPlainText document = [] <;>
      simp [process_docx_with_tables, h1, h2]
  · simp [process_docx_with_tables, h1, h2]

/-- Concrete instance for `plain_text_with_tables_separator`: a document
with one paragraph and one single-cell table produces both blocks joined by
the separator. -/
theorem plain_text_with_tables_separator_witness :
    process_docx_with_tables ⟨[⟨"x".data, [], Alignment.unspecified⟩], [⟨[["y".data]]⟩]⟩ =
      extractPlainText ⟨[⟨"x".data, [], Alignment.unspecified⟩], [⟨[["y".data]]⟩]⟩ ++
        "\n\n---\n\n".data ++
        tableTextBlock (Doc.tables ⟨[⟨"x".data, [], Alignment.unspecified⟩], [⟨[["y".data]]⟩]⟩) :=
  (plain_text_with_tables_separator _).2.2.2 (by decide) (by decide)

/-- C10: the structural summary never propagates a failure: a parse error
comes back as the `error` dictionary with the original message, a parsed
document always yields the stats dictionary — while the conversion entry
point `process_docx_file` re-raises the wrapped error to its caller. -/
theorem structure_never_raises :
    (∀ e : List Char, get_document_structure (.error e) = .err e) ∧
    (∀ d : Doc, ∃ s : DocStats, get_document_structure (.ok d) = .ok s) ∧
    (∀ e : List Char, process_docx_file (.error e) =
      .error ("Ошибка при обработке DOCX файла: ".data ++ e)) :=
  ⟨fun _ => rfl, fun _ => ⟨_, rfl⟩, fun _ => rfl⟩

/-- The HTML cell renderer as the claim words it: header cells use `<th>`,
other cells `<td>`; empty cell text yields an empty tagged cell. -/
def specCellHtml (header : Bool) (cellText : List Char) : List Char :=
  let cell_text := pyStrip cellText
  let tag := if header then "th".data else "td".data
  if cell_text ≠ [] then
    '<' :: (tag ++ '>' :: (clean_text cell_text ++ '<' :: '/' :: (tag ++ ['>'])))
  else '<' :: (tag ++ '>' :: '<' :: '/' :: (tag ++ ['>']))

/-- A row as the claim words it: cells concatenated inside `<tr>`; a row
with no cells produces nothing. -/
def specRowHtml (header : Bool) (row : List (List Char)) : Option (List Char) :=
  if row = [] then none
  else some ("<tr>".data ++ (row.map (specCellHtml header)).flatten ++ "</tr>".data)

/-- A table as the claim words it: the first row is the header row, every
later row uses `<td>`; the rendered rows are wrapped in `<table>`, and a
table with no rendered rows produces nothing. -/
def specTableHtml (t : Table) : List Char :=
  let rendered :=
    match t.rows with
    | [] => []
    | r0 :: rest => (specRowHtml true r0 :: rest.map (specRowHtml false)).reduceOption
  if rendered = [] then []
  else "<table>".data ++ rendered.flatten ++ "</table>".data

/-- Tables concatenated directly with no separator. -/
def specTablesHtml (tables : List Table) : List Char :=
  (tables.map specTableHtml).flatten

theorem renderCellSrc_zero (c : List Char) : renderCellSrc 0 c = specCellHtml true c := rfl

theorem renderCellSrc_succ (i : Nat) (c : List Char) :
    renderCellSrc (i + 1) c = specCellHtml false c := by
  simp [renderCellSrc, specCellHtml]

/-- From row index 1 on, the source row loop is the spec's `<td>`-only
rendering of the remaining rows. -/
theorem rowsHtmlAux_succ (rest : List (List (List Char))) :
    ∀ i : Nat, rowsHtmlAux (i + 1) rest = (rest.map (specRowHtml false)).reduceOption := by
  induction rest with
  | nil => intro i; simp [rowsHtmlAux, List.reduceOption]
  | cons row rest ih =>
    intro i
    by_cases hrow : row = []
    · simp [rowsHtmlAux, hrow, specRowHtml, List.reduceOption_cons_of_none, ih]
    · have hmap : List.map (renderCellSrc (i + 1)) row = List.map (specCellHtml false) row :=
        List.map_congr_left fun a _ => renderCellSrc_succ i a
      simp [rowsHtmlAux, hrow, specRowHtml, List.reduceOption_cons_of_some, ih, hmap]

/-- One source-rendered table equals the spec's rendering: row 0 is the
header row, rows 1+ use `<td>`. -/
theorem table_html_eq (t : Table) :
    (if rowsHtmlAux 0 t.rows = [] then ([] : List Char)
     else "<table>".data ++ (rowsHtmlAux 0 t.rows).flatten ++ "</table>".data)
      = specTableHtml t := by
  cases ht : t.rows with
  | nil => simp [rowsHtmlAux, specTableHtml, ht]
  | cons r0 rest =>
    by_cases hr0 : r0 = []
    · simp [rowsHtmlAux, hr0, specTableHtml, ht, specRowHtml, rowsHtmlAux_succ,
        List.reduceOption_cons_of_none]
    · have hmap : List.map (renderCellSrc 0) r0 = List.map (specCellHtml true) r0 :=
        List.map_congr_left fun a _ => renderCellSrc_zero a
      simp [rowsHtmlAux, hr0, specTableHtml, ht, specRowHtml, rowsHtmlAux_succ,
        List.reduceOption_cons_of_some, hmap]

theorem flatten_filterMap_getD {α : Type} (f : α → Option (List Char)) (ts : List α) :
    (ts.filterMap f).flatten = (ts.map fun t => (f t).getD []).flatten := by
  induction ts with
  | nil => rfl
  | cons t ts ih =>
    cases h : f t <;> simp [List.filterMap_cons, h, ih]

theorem tables_flatten_eq (ts : List Table) :
    (ts.filterMap fun t =>
      let rows_html := rowsHtmlAux 0 t.rows
      if rows_html = [] then none
      else some ("<table>".data ++ rows_html.flatten ++ "</table>".data)).flatten
      = (ts.map specTableHtml).flatten := by
  rw [flatten_filterMap_getD]
  congr 1
  apply List.map_congr_left
  intro t _
  by_cases h : rowsHtmlAux 0 t.rows = []
  · rw [← table_html_eq]; simp [h]
  · rw [← table_html_eq]; simp [h]

/-- C9: the HTML table renderer tags every cell of row 0 with `<th>` and
every cell of later rows with `<td>`, renders empty cells as empty tagged
cells, wraps rows in `<tr>` and each table in `<table>`, and concatenates
multiple tables with no separator — the source function equals the
spec-worded renderer. -/
theorem tables_html_matches_spec (tables : List Table) :
    extract_tables_as_html tables = specTablesHtml tables := by
  by_cases htab : tables = []
  · simp [extract_tables_as_html, specTablesHtml, htab]
  · simp only [extract_tables_as_html, htab, if_neg, specTablesHtml]
    exact tables_flatten_eq tables

theorem startsWith_h1_hTag1 (t : List Char) : startsWith ['<', 'h', '1', '>'] (hTag '1' t) = true := by
  simp [startsWith, List.isPrefixOf, hTag]

theorem startsWith_h1_hTag2 (t : List Char) : startsWith ['<', 'h', '1', '>'] (hTag '2' t) = false := by
  simp [startsWith, List.isPrefixOf, hTag]

theorem startsWith_h1_hTag3 (t : List Char) : startsWith ['<', 'h', '1', '>'] (hTag '3' t) = false := by
  simp [startsWith, List.isPrefixOf, hTag]

theorem startsWith_h1_pTag (n : Nat) (t : List Char) :
    startsWith ['<', 'h', '1', '>'] (pTag n t) = false := by
  simp [startsWith, List.isPrefixOf, pTag]

theorem startsWith_p_pTag (n : Nat) (t : List Char) :
    startsWith ['<', 'p'] (pTag n t) = true := by
  simp [startsWith, List.isPrefixOf, pTag]

theorem startsWith_p_hTag (c : Char) (t : List Char) :
    startsWith ['<', 'p'] (hTag c t) = false := by
  simp [startsWith, List.isPrefixOf, hTag]

theorem pp_ne_nil (p : Para) (t : List Char) (base : ℚ) (c : Nat) (u : Bool) :
    ¬process_paragraph p t base c u = [] := by
  simp only [process_paragraph]
  split
  · split
    · simp [hTag]
    · split
      · simp [hTag]
      · split <;> simp [hTag]
  · simp [pTag]

/-- An element starts with `<h1>` exactly when the paragraph classified H1
and the flag was still clear. -/
theorem pp_h1_starts (p : Para) (t : List Char) (base : ℚ) (c : Nat) (u : Bool) :
    startsWith ['<', 'h', '1', '>'] (process_paragraph p t base c u)
      = (decide (is_heading p t base = 1) && !u) := by
  simp only [process_paragraph]
  by_cases h1 : is_heading p t base = 1
  · cases u <;> simp [h1, startsWith_h1_hTag1, startsWith_h1_hTag2]
  · by_cases h0 : is_heading p t base > 0
    · by_cases h2 : is_heading p t base = 2 <;>
        simp [h0, h1, h2, startsWith_h1_hTag2, startsWith_h1_hTag3]
    · simp [h0, h1, startsWith_h1_pTag]

/-- An element starts with `<p` exactly when the paragraph classified NONE. -/
theorem pp_p_starts (p : Para) (t : List Char) (base : ℚ) (c : Nat) (u : Bool) :
    startsWith ['<', 'p'] (process_paragraph p t base c u)
      = decide (is_heading p t base = 0) := by
  simp only [process_paragraph]
  by_cases h0 : is_heading p t base > 0
  · have hne : is_heading p t base ≠ 0 := Nat.pos_iff_ne_zero.mp h0
    by_cases h1 : is_heading p t base = 1
    · cases u <;> simp [h0, h1, hne, startsWith_p_hTag]
    · by_cases h2 : is_heading p t base = 2 <;>
        simp [h0, h1, h2, hne, startsWith_p_hTag]
  · have hz : is_heading p t base = 0 := Nat.eq_zero_of_not_pos h0
    simp [h0, hz, startsWith_p_pTag]

/-- The number of `<h1>` elements in a list of rendered elements. -/
def countH1 (l : List (List Char)) : Nat :=
  l.countP fun e => startsWith ['<', 'h', '1', '>'] e

theorem countH1_nil : countH1 [] = 0 := rfl

theorem countH1_cons (e : List Char) (l : List (List Char)) :
    countH1 (e :: l) = countH1 l + if startsWith ['<', 'h', '1', '>'] e = true then 1 else 0 :=
  List.countP_cons _ _ _

/-- Once the flag is set, the paragraph loop emits no `<h1>` element at all. -/
theorem processParas_h1_used (base : ℚ) (ps : List Para) :
    ∀ c : Nat, countH1 (processParas base ps c true) = 0 := by
  induction ps with
  | nil => intro c; simp only [processParas]; exact countH1_nil
  | cons p rest ih =>
    intro c
    simp only [processParas]
    by_cases ht : pyStrip p.text = []
    · rw [if_pos ht]; exact ih c
    · rw [if_neg ht]
      by_cases hcl : clean_text (pyStrip p.text) = []
      · rw [if_pos hcl]; exact ih c
      · rw [if_neg hcl, if_neg (pp_ne_nil p (clean_text (pyStrip p.text)) base c true)]
        have he : startsWith ['<', 'h', '1', '>']
            (process_paragraph p (clean_text (pyStrip p.text)) base c true) = false := by
          rw [pp_h1_starts]; simp
        rw [countH1_cons, he]
        simp [ih]

/-- Starting with the flag clear, the paragraph loop emits at most one
`<h1>` element. -/
theorem processParas_h1_once (base : ℚ) (ps : List Para) :
    ∀ c : Nat, countH1 (processParas base ps c false) ≤ 1 := by
  induction ps with
  | nil => intro c; simp only [processParas]; rw [countH1_nil]; omega
  | cons p rest ih =>
    intro c
    simp only [processParas]
    by_cases ht : pyStrip p.text = []
    · rw [if_pos ht]; exact ih c
    · rw [if_neg ht]
      by_cases hcl : clean_text (pyStrip p.text) = []
      · rw [if_pos hcl]; exact ih c
      · rw [if_neg hcl, if_neg (pp_ne_nil p (clean_text (pyStrip p.text)) base c false)]
        by_cases hh : is_heading p (clean_text (pyStrip p.text)) base = 1
        · have he : startsWith ['<', 'h', '1', '>']
              (process_paragraph p (clean_text (pyStrip p.text)) base c false) = true := by
            rw [pp_h1_starts]; simp [hh]
          rw [countH1_cons, he]
          simp [processParas_h1_used]
        · have he : startsWith ['<', 'h', '1', '>']
              (process_paragraph p (clean_text (pyStrip p.text)) base c false) = false := by
            rw [pp_h1_starts]; simp [hh]
          rw [countH1_cons, he]
          simpa using ih _

/-- The `<p`-prefixed (body-paragraph) elements of a rendered element list. -/
def pElements (l : List (List Char)) : List (List Char) :=
  l.filter fun e => startsWith ['<', 'p'] e

theorem pElements_nil : pElements [] = [] := rfl

theorem pElements_cons (e : List Char) (l : List (List Char)) :
    pElements (e :: l) =
      if startsWith ['<', 'p'] e = true then e :: pElements l else pElements l :=
  List.filter_cons

/-- The cleaned texts of the paragraphs the loop renders as body
paragraphs: non-empty after `strip()`, non-empty after `clean_text`, and
classified NONE. -/
def bodyTexts (base : ℚ) : List Para → List (List Char)
  | [] => []
  | p :: rest =>
    let t := pyStrip p.text
    if t = [] then bodyTexts base rest
    else
      let cle := clean_text t
      if cle = [] then bodyTexts base rest
      else if is_heading p cle base = 0 then cle :: bodyTexts base rest
      else bodyTexts base rest

/-- `<pNN>` elements numbered consecutively from `c`. -/
def pElems : Nat → List (List Char) → List (List Char)
  | _, [] => []
  | c, t :: ts => pTag c t :: pElems (c + 1) ts

/-- A NONE-classified paragraph renders as the numbered `<pNN>` element. -/
theorem pp_of_none (p : Para) (t : List Char) (base : ℚ) (c : Nat) (u : Bool)
    (hz : is_heading p t base = 0) :
    process_paragraph p t base c u = pTag c t := by
  simp only [process_paragraph]
  simp [hz]

/-- The body-paragraph elements of the loop's output are exactly the
NONE-classified cleaned texts tagged with consecutive counters starting at
`c`, independently of the `h1_used` flag. -/
theorem processParas_pElements (base : ℚ) (ps : List Para) :
    ∀ (c : Nat) (u : Bool),
      pElements (processParas base ps c u) = pElems c (bodyTexts base ps) := by
  induction ps with
  | nil => intro c u; simp only [processParas, bodyTexts, pElems]; exact pElements_nil
  | cons p rest ih =>
    intro c u
    simp only [processParas, bodyTexts]
    by_cases ht : pyStrip p.text = []
    · rw [if_pos ht, if_pos ht]; exact ih c u
    · rw [if_neg ht, if_neg ht]
      by_cases hcl : clean_text (pyStrip p.text) = []
      · rw [if_pos hcl, if_pos hcl]; exact ih c u
      · rw [if_neg hcl, if_neg hcl,
          if_neg (pp_ne_nil p (clean_text (pyStrip p.text)) base c u)]
        by_cases hz : is_heading p (clean_text (pyStrip p.text)) base = 0
        · rw [if_pos hz, pp_of_none p _ base c u hz, pElements_cons,
            startsWith_h1_pTag, startsWith_p_pTag]
          simp only [if_pos, ite_true, Bool.false_eq_true, if_false, ite_false]
          rw [ih (c + 1) u]
          simp [pElems]
        · have hp : startsWith ['<', 'p']
              (process_paragraph p (clean_text (pyStrip p.text)) base c u) = false := by
            rw [pp_p_starts]; simp [hz]
          rw [if_neg hz, pElements_cons, hp]
          simp only [Bool.false_eq_true, if_false, ite_false]
          by_cases h1 : startsWith ['<', 'h', '1', '>']
              (process_paragraph p (clean_text (pyStrip p.text)) base c u) = true
          · rw [if_pos h1, if_pos h1]; exact ih c true
          · rw [if_neg h1, if_neg h1]
            exact ih c u

/-- C2: a render emits at most one `<h1>` element: starting with the flag
clear the element list contains at most one `<h1>`-prefixed element; once
the flag is set no `<h1>` element is ever emitted; and an H1-classified
paragraph renders as `<h1>text</h1>` exactly while the flag is clear and as
the demoted `<h2>text</h2>` once it is set. -/
theorem at_most_one_h1_element (base : ℚ) (ps : List Para) :
    countH1 (processParas base ps 1 false) ≤ 1 ∧
    (∀ c : Nat, countH1 (processParas base ps c true) = 0) ∧
    (∀ (p : Para) (t : List Char) (c : Nat), is_heading p t base = 1 →
      process_paragraph p t base c false = hTag '1' t ∧
      process_paragraph p t base c true = hTag '2' t) := by
  refine ⟨processParas_h1_once base ps 1, processParas_h1_used base ps, ?_⟩
  intro p t c hh
  constructor
  · simp only [process_paragraph]; simp [hh]
  · simp only [process_paragraph]; simp [hh]

/-- Concrete instance for `at_most_one_h1_element`: a centered bold 18pt
paragraph against baseline 12 classifies H1 and renders `<h1>`/`<h2>` by
flag state. -/
theorem at_most_one_h1_element_witness :
    countH1 (processParas 12 [] 1 false) ≤ 1 ∧
    (process_paragraph ⟨"T".data, [⟨[], true, some 18⟩], Alignment.center⟩ "T".data 12 1 false
        = hTag '1' "T".data ∧
      process_paragraph ⟨"T".data, [⟨[], true, some 18⟩], Alignment.center⟩ "T".data 12 1 true
        = hTag '2' "T".data) :=
  ⟨(at_most_one_h1_element 12 []).1,
   (at_most_one_h1_element 12 []).2.2 _ "T".data 1 (by with_unfolding_all decide)⟩

/-- C3: the body-paragraph counter starts at 1 and the `<p`-prefixed
elements of a render are exactly the NONE-classified non-empty cleaned
texts wrapped as `<pNN>text</pNN>` with consecutive two-digit-padded
numbers 1, 2, 3, … in document order — headings never advance the counter. -/
theorem paragraph_numbering_consecutive (base : ℚ) (ps : List Para) :
    pElements (processParas base ps 1 false) = pElems 1 (bodyTexts base ps) :=
  processParas_pElements base ps 1 false

example :
    processParas 12 [⟨"Hello world".data, [], Alignment.unspecified⟩,
        ⟨"B".data, [], Alignment.unspecified⟩] 1 false
      = [pTag 1 "Hello world".data, pTag 2 "B".data] := by with_unfolding_all decide

/-- The counting loop counts exactly the paragraphs with non-empty
stripped text, split by the classification of that stripped text. -/
theorem countsLoop_eq (base : ℚ) (ps : List Para) :
    ∀ pc hc : Nat,
      countsLoop base ps (pc, hc)
        = (pc + (ps.countP fun p => decide (pyStrip p.text ≠ []) &&
              decide (is_heading p (pyStrip p.text) base = 0)),
           hc + (ps.countP fun p => decide (pyStrip p.text ≠ []) &&
              decide (is_heading p (pyStrip p.text) base ≠ 0))) := by
  induction ps with
  | nil => intro pc hc; simp [countsLoop]
  | cons p rest ih =>
    intro pc hc
    simp only [countsLoop]
    by_cases ht : pyStrip p.text = []
    · have h1 : (decide (pyStrip p.text ≠ []) &&
          decide (is_heading p (pyStrip p.text) base = 0)) = false := by simp [ht]
      have h2 : (decide (pyStrip p.text ≠ []) &&
          decide (is_heading p (pyStrip p.text) base ≠ 0)) = false := by simp [ht]
      rw [if_pos ht, ih, List.countP_cons, List.countP_cons, h1, h2]
      simp
    · rw [if_neg ht]
      by_cases hh : is_heading p (pyStrip p.text) base ≠ 0
      · have h1 : (decide (pyStrip p.text ≠ []) &&
            decide (is_heading p (pyStrip p.text) base = 0)) = false := by simp [ht, hh]
        have h2 : (decide (pyStrip p.text ≠ []) &&
            decide (is_heading p (pyStrip p.text) base ≠ 0)) = true := by simp [ht, hh]
        rw [if_pos hh, ih, List.countP_cons, List.countP_cons, h1, h2]
        simp only [Bool.false_eq_true, if_false, if_true, ite_false, ite_true,
          Prod.mk.injEq]
        constructor <;> omega
      · have hz : is_heading p (pyStrip p.text) base = 0 := not_not.mp hh
        have h1 : (decide (pyStrip p.text ≠ []) &&
            decide (is_heading p (pyStrip p.text) base = 0)) = true := by simp [ht, hz]
        have h2 : (decide (pyStrip p.text ≠ []) &&
            decide (is_heading p (pyStrip p.text) base ≠ 0)) = false := by simp [ht, hz]
        rw [if_neg hh, ih, List.countP_cons, List.countP_cons, h1, h2]
        simp only [Bool.false_eq_true, if_false, if_true, ite_false, ite_true,
          Prod.mk.injEq]
        constructor <;> omega

/-- C7 (amended): the structural summary's `headings` counts the
paragraphs whose `strip()`-ed text is non-empty and classifies non-NONE,
`paragraphs` those whose stripped text is non-empty and classifies NONE —
classification is applied to the stripped (not sanitized) text, and
paragraphs empty after stripping are counted in neither. -/
theorem structure_counts (d : Doc) :
    get_document_structure (.ok d)
      = .ok ⟨(d.paragraphs.countP fun p => decide (pyStrip p.text ≠ []) &&
              decide (is_heading p (pyStrip p.text) (analyze_font_sizes d).base = 0)),
             (d.paragraphs.countP fun p => decide (pyStrip p.text ≠ []) &&
              decide (is_heading p (pyStrip p.text) (analyze_font_sizes d).base ≠ 0)),
             d.tables.length, analyze_font_sizes d⟩ := by
  simp only [get_document_structure]
  rw [countsLoop_eq]
  simp

/-- C7 counterexample: the claim as stated is false on the code.  The
one-paragraph document whose text is the single control character `\x01`
has stripped text non-empty (so the code counts it: one body paragraph)
but sanitized text empty (so the claim would count it in neither total). -/
theorem structure_counts_claim_cex :
    get_document_structure
        (.ok ⟨[⟨['\x01'], [], Alignment.unspecified⟩], []⟩)
      = .ok ⟨1, 0, 0, ⟨12, 12, 12, []⟩⟩ ∧
    ((Doc.paragraphs ⟨[⟨['\x01'], [], Alignment.unspecified⟩], []⟩).countP fun p =>
        decide (clean_text (pyStrip p.text) ≠ []) &&
        decide (is_heading p (clean_text (pyStrip p.text)) 12 = 0)) = 0 ∧
    clean_text (pyStrip ['\x01']) = [] := by
  refine ⟨?_, ?_, ?_⟩ <;> with_unfolding_all decide

theorem replaceChar_cons (c : Char) (r : List Char) (a : Char) (s : List Char) :
    replaceChar c r (a :: s) = (if a = c then r else [a]) ++ replaceChar c r s := by
  simp [replaceChar]

theorem replaceChar_id {c : Char} {r : List Char} :
    ∀ {s : List Char}, (∀ x ∈ s, x ≠ c) → replaceChar c r s = s := by
  intro s
  induction s with
  | nil => intro _; rfl
  | cons a s ih =>
    intro h
    have ha : a ≠ c := h a (List.mem_cons_self a s)
    have hs : ∀ x ∈ s, x ≠ c := fun x hx => h x (List.mem_cons_of_mem a hx)
    rw [replaceChar_cons, if_neg ha, ih hs]
    rfl

theorem escapeHtml_id (s : List Char)
    (h : ∀ c ∈ s, ¬c ∈ (['&', '<', '>', '"', '\''] : List Char)) :
    escapeHtml s = s := by
  have hq : ∀ c₀ ∈ (['&', '<', '>', '"', '\''] : List Char), ∀ x ∈ s, x ≠ c₀ :=
    fun c₀ hc₀ x hx he => h x hx (he ▸ hc₀)
  unfold escapeHtml
  rw [replaceChar_id (hq '&' (by decide)), replaceChar_id (hq '<' (by decide)),
    replaceChar_id (hq '>' (by decide)), replaceChar_id (hq '"' (by decide)),
    replaceChar_id (hq '\'' (by decide))]

theorem dropWhile_head?_false {p : Char → Bool} :
    ∀ (l : List Char) (c : Char), (l.dropWhile p).head? = some c → p c = false := by
  intro l
  induction l with
  | nil => intro c h; simp [List.dropWhile] at h
  | cons a l ih =>
    intro c h
    rw [List.dropWhile_cons] at h
    by_cases hp : p a
    · rw [if_pos hp] at h; exact ih c h
    · rw [if_neg hp] at h
      simp only [List.head?_cons, Option.some.injEq] at h
      rw [← h]
      exact Bool.not_eq_true _ |>.mp hp

theorem dropWhile_eq_self_of_head? {p : Char → Bool} (l : List Char)
    (h : ∀ c, l.head? = some c → p c = false) : l.dropWhile p = l := by
  cases l with
  | nil => rfl
  | cons a l =>
    rw [List.dropWhile_cons, if_neg]
    simp [h a rfl]

theorem dropWhile_dropWhile {p : Char → Bool} (l : List Char) :
    (l.dropWhile p).dropWhile p = l.dropWhile p :=
  dropWhile_eq_self_of_head? _ (fun c h => dropWhile_head?_false l c h)

theorem getLast?_dropWhile {p : Char → Bool} :
    ∀ l : List Char, l.dropWhile p ≠ [] → (l.dropWhile p).getLast? = l.getLast? := by
  intro l
  induction l with
  | nil => intro h; simp [List.dropWhile] at h
  | cons a l ih =>
    intro h
    rw [List.dropWhile_cons] at h ⊢
    by_cases hp : p a
    · rw [if_pos hp] at h ⊢
      have hl : l ≠ [] := by
        intro he; rw [he] at h; simp [List.dropWhile] at h
      cases l with
      | nil => exact absurd rfl hl
      | cons b t => rw [List.getLast?_cons_cons]; exact ih h
    · rw [if_neg hp]

/-- `str.strip()` is idempotent. -/
theorem pyStrip_idem (s : List Char) : pyStrip (pyStrip s) = pyStrip s := by
  unfold pyStrip
  have h1 : (((s.dropWhile isPySpace).reverse.dropWhile isPySpace).reverse).dropWhile
      isPySpace = ((s.dropWhile isPySpace).reverse.dropWhile isPySpace).reverse := by
    apply dropWhile_eq_self_of_head?
    intro c hc
    rw [List.head?_reverse] at hc
    by_cases hB : (s.dropWhile isPySpace).reverse.dropWhile isPySpace = []
    · rw [hB] at hc; simp at hc
    · rw [getLast?_dropWhile _ hB, List.getLast?_reverse] at hc
      exact dropWhile_head?_false s c hc
  rw [h1, List.reverse_reverse, dropWhile_dropWhile]

theorem collapseAux_cons_ws_false {a : Char} (ha : isPySpace a = true) (s : List Char) :
    collapseAux false (a :: s) = ' ' :: collapseAux true s := by
  simp [collapseAux, ha]

theorem collapseAux_cons_ws_true {a : Char} (ha : isPySpace a = true) (s : List Char) :
    collapseAux true (a :: s) = collapseAux true s := by
  simp [collapseAux, ha]

theorem collapseAux_cons_nws {a : Char} (ha : isPySpace a = false) (flag : Bool)
    (s : List Char) : collapseAux flag (a :: s) = a :: collapseAux false s := by
  simp [collapseAux, ha]

/-- Every whitespace character in the collapsed output is a plain space. -/
theorem collapse_allWs :
    ∀ (s : List Char) (flag : Bool), ∀ c ∈ collapseAux flag s,
      isPySpace c = true → c = ' ' := by
  intro s
  induction s with
  | nil => intro flag c hc; simp [collapseAux] at hc
  | cons a s ih =>
    intro flag c hc hws
    by_cases ha : isPySpace a
    · cases flag with
      | true => rw [collapseAux_cons_ws_true ha] at hc; exact ih true c hc hws
      | false =>
        rw [collapseAux_cons_ws_false ha] at hc
        rcases List.mem_cons.mp hc with h | h
        · exact h
        · exact ih true c h hws
    · rw [collapseAux_cons_nws (Bool.not_eq_true _ |>.mp ha)] at hc
      rcases List.mem_cons.mp hc with h | h
      · subst h; rw [hws] at ha; exact absurd rfl ha
      · exact ih false c h hws

/-- Characters of the collapsed output come from the input or are spaces. -/
theorem collapse_mem :
    ∀ (s : List Char) (flag : Bool), ∀ c ∈ collapseAux flag s, c ∈ s ∨ c = ' ' := by
  intro s
  induction s with
  | nil => intro flag c hc; simp [collapseAux] at hc
  | cons a s ih =>
    intro flag c hc
    by_cases ha : isPySpace a
    · cases flag with
      | true =>
        rw [collapseAux_cons_ws_true ha] at hc
        rcases ih true c hc with h | h
        · exact Or.inl (List.mem_cons_of_mem a h)
        · exact Or.inr h
      | false =>
        rw [collapseAux_cons_ws_false ha] at hc
        rcases List.mem_cons.mp hc with h | h
        · exact Or.inr h
        · rcases ih true c h with h' | h'
          · exact Or.inl (List.mem_cons_of_mem a h')
          · exact Or.inr h'
    · rw [collapseAux_cons_nws (Bool.not_eq_true _ |>.mp ha)] at hc
      rcases List.mem_cons.mp hc with h | h
      · exact Or.inl (h ▸ List.mem_cons_self a s)
      · rcases ih false c h with h' | h'
        · exact Or.inl (List.mem_cons_of_mem a h')
        · exact Or.inr h'

/-- Adjacent characters of the collapsed output are never both whitespace. -/
def wsR (a b : Char) : Prop := isPySpace a = true → isPySpace b = false

theorem collapse_chain (s : List Char) :
    List.Chain' wsR (collapseAux false s) ∧
    (List.Chain' wsR (collapseAux true s) ∧
      ∀ c ∈ (collapseAux true s).head?, isPySpace c = false) := by
  induction s with
  | nil => refine ⟨?_, ?_, ?_⟩ <;> simp [collapseAux]
  | cons a s ih =>
    obtain ⟨ihf, iht, ihh⟩ := ih
    by_cases ha : isPySpace a
    · refine ⟨?_, ?_, ?_⟩
      · rw [collapseAux_cons_ws_false ha]
        exact List.chain'_cons'.mpr ⟨fun y hy _ => ihh y hy, iht⟩
      · rw [collapseAux_cons_ws_true ha]; exact iht
      · rw [collapseAux_cons_ws_true ha]; exact ihh
    · have ha' : isPySpace a = false := Bool.not_eq_true _ |>.mp ha
      refine ⟨?_, ?_, ?_⟩
      · rw [collapseAux_cons_nws ha']
        exact List.chain'_cons'.mpr ⟨fun y _ hws => absurd (hws ▸ ha') (by simp [hws]), ihf⟩
      · rw [collapseAux_cons_nws ha']
        exact List.chain'_cons'.mpr ⟨fun y _ hws => absurd (hws ▸ ha') (by simp [hws]), ihf⟩
      · rw [collapseAux_cons_nws ha']
        intro c hc
        simp only [List.head?_cons, Option.mem_def, Option.some.injEq] at hc
        rw [← hc]; exact ha'

/-- Collapsing is the identity on a string whose whitespace is single
spaces with no two adjacent. -/
theorem collapseAux_eq_self :
    ∀ s : List Char, (∀ c ∈ s, isPySpace c = true → c = ' ') → List.Chain' wsR s →
      (collapseAux false s = s ∧
        ((∀ c ∈ s.head?, isPySpace c = false) → collapseAux true s = s)) := by
  intro s
  induction s with
  | nil => intro _ _; exact ⟨rfl, fun _ => rfl⟩
  | cons a s ih =>
    intro hall hch
    have halls : ∀ c ∈ s, isPySpace c = true → c = ' ' :=
      fun c hc => hall c (List.mem_cons_of_mem a hc)
    have hchs : List.Chain' wsR s := (List.chain'_cons'.mp hch).2
    obtain ⟨ihf, iht⟩ := ih halls hchs
    by_cases ha : isPySpace a
    · have haSp : a = ' ' := hall a (List.mem_cons_self a s) ha
      constructor
      · rw [collapseAux_cons_ws_false ha, haSp]
        congr 1
        exact iht fun c hc => (List.chain'_cons'.mp hch).1 c hc ha
      · intro hhead
        have := hhead a rfl
        rw [ha] at this
        cases this
    · have ha' : isPySpace a = false := Bool.not_eq_true _ |>.mp ha
      refine ⟨?_, fun _ => ?_⟩
      · rw [collapseAux_cons_nws ha', ihf]
      · rw [collapseAux_cons_nws ha', ihf]

/-- `pyStrip` keeps a contiguous middle part of its input. -/
theorem pyStrip_within (s : List Char) : pyStrip s <:+: s := by
  unfold pyStrip
  have h1 : s.dropWhile isPySpace <:+ s := List.dropWhile_suffix _
  have h2 : ((s.dropWhile isPySpace).reverse.dropWhile isPySpace).reverse
      <+: s.dropWhile isPySpace :=
    List.reverse_suffix.mp (by
      rw [List.reverse_reverse]
      exact List.dropWhile_suffix _)
  exact h2.isInfix.trans h1.isInfix

/-- Characters surviving `preClean` are non-control input characters or
single spaces. -/
theorem preClean_mem (s : List Char) :
    ∀ c ∈ preClean s, (c ∈ s ∧ isCtrl c = false) ∨ c = ' ' := by
  intro c hc
  unfold preClean at hc
  have hc2 : c ∈ collapseWs (s.filter fun c => !isCtrl c) := (pyStrip_within _).mem hc
  rcases collapse_mem _ false c hc2 with h | h
  · left
    rcases List.mem_filter.mp h with ⟨hm, hp⟩
    exact ⟨hm, by simpa using hp⟩
  · right; exact h

/-- The non-escaping sanitisation front is idempotent. -/
theorem preClean_idem (s : List Char) : preClean (preClean s) = preClean s := by
  have hfil : (preClean s).filter (fun c => !isCtrl c) = preClean s := by
    rw [List.filter_eq_self]
    intro c hc
    rcases preClean_mem s c hc with ⟨_, h⟩ | h
    · simp [h]
    · subst h; decide
  have hall : ∀ c ∈ preClean s, isPySpace c = true → c = ' ' := by
    intro c hc
    have hc2 : c ∈ collapseWs (s.filter fun c => !isCtrl c) :=
      (pyStrip_within _).mem hc
    exact collapse_allWs _ false c hc2
  have hch : List.Chain' wsR (preClean s) :=
    List.Chain'.infix ((collapse_chain (s.filter fun c => !isCtrl c)).1) (pyStrip_within _)
  have hcol : collapseWs (preClean s) = preClean s :=
    (collapseAux_eq_self _ hall hch).1
  have hstrip : pyStrip (preClean s) = preClean s := by
    unfold preClean
    exact pyStrip_idem _
  calc preClean (preClean s)
      = pyStrip (collapseWs ((preClean s).filter (fun c => !isCtrl c))) := rfl
    _ = pyStrip (collapseWs (preClean s)) := by rw [hfil]
    _ = pyStrip (preClean s) := by rw [hcol]
    _ = preClean s := hstrip

/-- C5 counterexample: sanitising twice is not the same as sanitising once —
`&` escapes to `&amp;`, whose ampersand is escaped again on the second
pass, yielding `&amp;amp;`. -/
theorem sanitize_not_idempotent :
    clean_text (clean_text ['&']) ≠ clean_text ['&'] := by decide

/-- C5 (amended): the sanitizer is idempotent on every input containing
none of the five escaped characters `&`, `<`, `>`, `"`, `'`; on inputs
containing any of them it is not (the counterexample re-escapes `&`). -/
theorem sanitize_idem_no_specials (x : List Char)
    (h : ∀ c ∈ x, ¬c ∈ (['&', '<', '>', '"', '\''] : List Char)) :
    clean_text (clean_text x) = clean_text x := by
  have hpre : ∀ c ∈ preClean x, ¬c ∈ (['&', '<', '>', '"', '\''] : List Char) := by
    intro c hc
    rcases preClean_mem x c hc with ⟨hcx, _⟩ | hsp
    · exact h c hcx
    · subst hsp; decide
  have h1 : clean_text x = preClean x := escapeHtml_id _ hpre
  rw [h1]
  show escapeHtml (preClean (preClean x)) = preClean x
  rw [preClean_idem]
  exact escapeHtml_id _ hpre

/-- Concrete instance for `sanitize_idem_no_specials`: a special-free
input with doubled interior spaces. -/
theorem sanitize_idem_no_specials_witness :
    (∀ c ∈ "a  b".data, ¬c ∈ (['&', '<', '>', '"', '\''] : List Char)) ∧
    clean_text (clean_text "a  b".data) = clean_text "a  b".data :=
  ⟨by decide, sanitize_idem_no_specials _ (by decide)⟩

/-- A single simultaneous escaping pass: each of the five special
characters becomes its entity, every other character stays itself. -/
def escChar (c : Char) : List Char :=
  if c = '&' then "&amp;".data
  else if c = '<' then "&lt;".data
  else if c = '>' then "&gt;".data
  else if c = '"' then "&quot;".data
  else if c = '\'' then "&#39;".data
  else [c]

theorem replaceChar_append (c : Char) (r u v : List Char) :
    replaceChar c r (u ++ v) = replaceChar c r u ++ replaceChar c r v := by
  simp [replaceChar]

theorem escapeHtml_append (u v : List Char) :
    escapeHtml (u ++ v) = escapeHtml u ++ escapeHtml v := by
  simp [escapeHtml, replaceChar_append]

theorem escapeHtml_single (a : Char) : escapeHtml [a] = escChar a := by
  by_cases h1 : a = '&'
  · subst h1; decide
  · by_cases h2 : a = '<'
    · subst h2; decide
    · by_cases h3 : a = '>'
      · subst h3; decide
      · by_cases h4 : a = '"'
        · subst h4; decide
        · by_cases h5 : a = '\''
          · subst h5; decide
          · simp [escapeHtml, replaceChar, escChar, h1, h2, h3, h4, h5]

/-- The five sequential replacements — `&` first — equal one simultaneous
pass: escaping `&` before the others means the ampersands introduced by
the later entities are never re-escaped. -/
theorem escapeHtml_flatten (s : List Char) :
    escapeHtml s = (s.map escChar).flatten := by
  induction s with
  | nil => rfl
  | cons a s ih =>
    have hsplit : (a :: s) = [a] ++ s := rfl
    rw [hsplit, escapeHtml_append, ih, escapeHtml_single]
    simp

/-- C8: the sanitizer's escaping (ampersand first, then `<`, `>`, `"`, `'`)
acts as one entity-per-character pass, and consequently the sanitized text
contains no literal `<`, `>`, `"` or `'` — tag injection is impossible and
every remaining `&` opens an entity. -/
theorem html_escaping_safe (x : List Char) :
    clean_text x = ((preClean x).map escChar).flatten ∧
    (∀ c ∈ clean_text x, c ≠ '<' ∧ c ≠ '>' ∧ c ≠ '"' ∧ c ≠ '\'') := by
  refine ⟨escapeHtml_flatten (preClean x), ?_⟩
  intro c hc
  rw [show clean_text x = ((preClean x).map escChar).flatten from
    escapeHtml_flatten _] at hc
  rcases List.mem_flatten.mp hc with ⟨b, hb, hcb⟩
  rcases List.mem_map.mp hb with ⟨c', _, hbc⟩
  subst hbc
  by_cases h1 : c' = '&'
  · subst h1; simp [escChar] at hcb
    rcases hcb with rfl | rfl | rfl | rfl | rfl <;> exact ⟨by decide, by decide, by decide, by decide⟩
  · by_cases h2 : c' = '<'
    · subst h2; simp [escChar, h1] at hcb
      rcases hcb with rfl | rfl | rfl | rfl <;> exact ⟨by decide, by decide, by decide, by decide⟩
    · by_cases h3 : c' = '>'
      · subst h3; simp [escChar] at hcb
        rcases hcb with rfl | rfl | rfl | rfl <;> exact ⟨by decide, by decide, by decide, by decide⟩
      · by_cases h4 : c' = '"'
        · subst h4; simp [escChar] at hcb
          rcases hcb with rfl | rfl | rfl | rfl | rfl | rfl <;>
            exact ⟨by decide, by decide, by decide, by decide⟩
        · by_cases h5 : c' = '\''
          · subst h5; simp [escChar] at hcb
            rcases hcb with rfl | rfl | rfl | rfl | rfl <;>
              exact ⟨by decide, by decide, by decide, by decide⟩
          · simp [escChar, h1, h2, h3, h4, h5] at hcb
            subst hcb
            exact ⟨h2, h3, h4, h5⟩

/-- Concrete instance for `html_escaping_safe`: sanitizing `"<"` yields
`"&lt;"`, whose ampersand is not one of the four dangerous characters. -/
theorem html_escaping_safe_witness :
    clean_text ['<'] = ((preClean ['<']).map escChar).flatten ∧
    ('&' ≠ '<' ∧ '&' ≠ '>' ∧ '&' ≠ '"' ∧ '&' ≠ '\'') :=
  ⟨(html_escaping_safe ['<']).1, (html_escaping_safe ['<']).2 '&' (by decide)⟩

/-- The keys a left-to-right scan inserts into the size dictionary, in
first-occurrence order, given the keys already present. -/
def newKeys : List ℚ → List ℚ → List ℚ
  | _, [] => []
  | ks, a :: l => if a ∈ ks then newKeys ks l else a :: newKeys (a :: ks) l

theorem newKeys_congr :
    ∀ (l ks1 ks2 : List ℚ), (∀ x : ℚ, x ∈ ks1 ↔ x ∈ ks2) →
      newKeys ks1 l = newKeys ks2 l := by
  intro l
  induction l with
  | nil => intro ks1 ks2 _; rfl
  | cons a l ih =>
    intro ks1 ks2 h
    by_cases ha : a ∈ ks1
    · rw [newKeys, if_pos ha, newKeys, if_pos ((h a).mp ha)]
      exact ih ks1 ks2 h
    · rw [newKeys, if_neg ha, newKeys, if_neg (fun hc => ha ((h a).mpr hc))]
      congr 1
      refine ih (a :: ks1) (a :: ks2) fun x => ?_
      simp [h x]

theorem mem_newKeys :
    ∀ (l ks : List ℚ) (x : ℚ), x ∈ newKeys ks l ↔ (x ∈ l ∧ x ∉ ks) := by
  intro l
  induction l with
  | nil => intro ks x; simp [newKeys]
  | cons a l ih =>
    intro ks x
    by_cases ha : a ∈ ks
    · rw [newKeys, if_pos ha, ih]
      constructor
      · rintro ⟨hx, hk⟩; exact ⟨List.mem_cons_of_mem a hx, hk⟩
      · rintro ⟨hx, hk⟩
        rcases List.mem_cons.mp hx with rfl | hx
        · exact absurd ha hk
        · exact ⟨hx, hk⟩
    · rw [newKeys, if_neg ha]
      constructor
      · intro hx
        rcases List.mem_cons.mp hx with rfl | hx
        · exact ⟨List.mem_cons_self x l, ha⟩
        · obtain ⟨h1, h2⟩ := (ih (a :: ks) x).mp hx
          exact ⟨List.mem_cons_of_mem a h1,
            fun hc => h2 (List.mem_cons_of_mem a hc)⟩
      · rintro ⟨hx, hk⟩
        rcases List.mem_cons.mp hx with rfl | hx
        · exact List.mem_cons_self x _
        · by_cases hxa : x = a
          · subst hxa; exact List.mem_cons_self x _
          · exact List.mem_cons_of_mem a
              ((ih (a :: ks) x).mpr ⟨hx, by simp [hxa, hk]⟩)

theorem newKeys_pairwise :
    ∀ (l ks : List ℚ),
      List.Pairwise (fun x y => l.indexOf x < l.indexOf y) (newKeys ks l) := by
  intro l
  induction l with
  | nil => intro ks; simp [newKeys]
  | cons a l ih =>
    intro ks
    by_cases ha : a ∈ ks
    · rw [newKeys, if_pos ha]
      refine (ih ks).imp_of_mem fun {x y} hx hy hlt => ?_
      have hxa : x ≠ a := fun he =>
        ((mem_newKeys l ks x).mp hx).2 (he ▸ ha)
      have hya : y ≠ a := fun he =>
        ((mem_newKeys l ks y).mp hy).2 (he ▸ ha)
      rw [List.indexOf_cons_ne l (Ne.symm hxa), List.indexOf_cons_ne l (Ne.symm hya)]
      exact Nat.succ_lt_succ hlt
    · rw [newKeys, if_neg ha]
      refine List.pairwise_cons.mpr ⟨?_, ?_⟩
      · intro y hy
        have hya : y ≠ a := fun he =>
          ((mem_newKeys l (a :: ks) y).mp hy).2 (he ▸ List.mem_cons_self a ks)
        rw [List.indexOf_cons_self, List.indexOf_cons_ne l (Ne.symm hya)]
        exact Nat.succ_pos _
      · refine (ih (a :: ks)).imp_of_mem fun {x y} hx hy hlt => ?_
        have hxa : x ≠ a := fun he =>
          ((mem_newKeys l (a :: ks) x).mp hx).2 (he ▸ List.mem_cons_self a ks)
        have hya : y ≠ a := fun he =>
          ((mem_newKeys l (a :: ks) y).mp hy).2 (he ▸ List.mem_cons_self a ks)
        rw [List.indexOf_cons_ne l (Ne.symm hxa), List.indexOf_cons_ne l (Ne.symm hya)]
        exact Nat.succ_lt_succ hlt

theorem bumpCount_mem :
    ∀ {acc : List (ℚ × Nat)} {a : ℚ}, a ∈ acc.map Prod.fst →
      (acc.map Prod.fst).Nodup →
      bumpCount acc a = acc.map fun p => if p.1 = a then (p.1, p.2 + 1) else p := by
  intro acc
  induction acc with
  | nil => intro a h _; simp at h
  | cons kv rest ih =>
    intro a h hnd
    obtain ⟨k, v⟩ := kv
    by_cases hk : k = a
    · subst hk
      rw [List.map_cons] at hnd
      obtain ⟨hnotin, hndr⟩ := List.nodup_cons.mp hnd
      rw [bumpCount, if_pos rfl, List.map_cons]
      have hhead : (if ((k, v) : ℚ × Nat).1 = k then ((k, v).1, (k, v).2 + 1) else (k, v))
          = (k, v + 1) := by simp
      rw [hhead]
      congr 1
      refine ((List.map_congr_left fun p hp => ?_).trans (List.map_id' rest)).symm
      have hpk : p.1 ≠ k := by
        intro he
        have hm := List.mem_map_of_mem Prod.fst hp
        rw [he] at hm
        exact hnotin hm
      simp [hpk]
    · rw [bumpCount, if_neg hk, List.map_cons]
      have h' : a ∈ rest.map Prod.fst := by
        rcases List.mem_map.mp h with ⟨p, hp, hpa⟩
        rcases List.mem_cons.mp hp with rfl | hp
        · exact absurd hpa hk
        · exact hpa ▸ List.mem_map_of_mem Prod.fst hp
      have hnd' : (rest.map Prod.fst).Nodup := by
        rw [List.map_cons] at hnd
        exact (List.nodup_cons.mp hnd).2
      rw [ih h' hnd']
      congr 1
      simp [hk]

theorem bumpCount_not_mem :
    ∀ {acc : List (ℚ × Nat)} {a : ℚ}, a ∉ acc.map Prod.fst →
      bumpCount acc a = acc ++ [(a, 1)] := by
  intro acc
  induction acc with
  | nil => intro a _; rfl
  | cons kv rest ih =>
    intro a h
    obtain ⟨k, v⟩ := kv
    have hk : k ≠ a := fun he => h (by simp [he])
    have h' : a ∉ rest.map Prod.fst := fun hc => h (by simp [hc])
    rw [bumpCount, if_neg hk, ih h']
    rfl

/-- Folding the dictionary-update over the size list: existing keys keep
their position and accumulate the list's count of that key, new keys are
appended in first-occurrence order, each with its count. -/
theorem foldl_bumpCount :
    ∀ (l : List ℚ) (acc : List (ℚ × Nat)), (acc.map Prod.fst).Nodup →
      List.foldl bumpCount acc l
        = acc.map (fun p => (p.1, p.2 + l.count p.1))
          ++ (newKeys (acc.map Prod.fst) l).map fun k => (k, l.count k) := by
  intro l
  induction l with
  | nil =>
    intro acc _
    simp [newKeys, List.count_nil]
  | cons a l ih =>
    intro acc hnd
    rw [List.foldl_cons]
    by_cases hmem : a ∈ acc.map Prod.fst
    · rw [bumpCount_mem hmem hnd]
      have hkeys : (acc.map fun p => if p.1 = a then (p.1, p.2 + 1) else p).map Prod.fst
          = acc.map Prod.fst := by
        rw [List.map_map]
        exact List.map_congr_left fun p _ => by by_cases hp : p.1 = a <;> simp [hp]
      have hnd' : ((acc.map fun p => if p.1 = a then (p.1, p.2 + 1) else p).map
          Prod.fst).Nodup := by rw [hkeys]; exact hnd
      rw [ih _ hnd', hkeys]
      congr 1
      · rw [List.map_map]
        refine List.map_congr_left fun p _ => ?_
        by_cases hp : p.1 = a
        · simp only [Function.comp, hp, if_pos, ite_true]
          rw [List.count_cons]
          simp [hp]
          omega
        · simp only [Function.comp, hp, if_neg, ite_false]
          rw [List.count_cons]
          simp [Ne.symm hp]
      · rw [newKeys, if_pos hmem]
        refine List.map_congr_left fun k hk => ?_
        have hka : k ≠ a := fun he =>
          ((mem_newKeys l (acc.map Prod.fst) k).mp hk).2 (he ▸ hmem)
        rw [List.count_cons]
        simp [Ne.symm hka]
    · rw [bumpCount_not_mem hmem]
      have hkeys : ((acc ++ [(a, 1)]).map Prod.fst) = acc.map Prod.fst ++ [a] := by
        simp
      have hnd' : (((acc ++ [(a, 1)]).map Prod.fst)).Nodup := by
        rw [hkeys]
        simp [List.nodup_append, hnd, hmem]
      rw [ih _ hnd', hkeys]
      rw [newKeys, if_neg hmem]
      have hcongr : newKeys (acc.map Prod.fst ++ [a]) l
          = newKeys (a :: acc.map Prod.fst) l :=
        newKeys_congr l _ _ fun x => by simp [or_comm]
      rw [hcongr]
      simp only [List.map_append, List.map_cons, List.append_assoc, List.map_nil,
        List.singleton_append]
      congr 1
      · refine List.map_congr_left fun p hp => ?_
        have hpa : p.1 ≠ a := fun he =>
          hmem (he ▸ List.mem_map_of_mem Prod.fst hp)
        rw [List.count_cons]
        simp [Ne.symm hpa]
      · congr 1
        · rw [List.count_cons]
          simp
          omega
        · refine List.map_congr_left fun k hk => ?_
          have hka : k ≠ a := fun he =>
            ((mem_newKeys l (a :: acc.map Prod.fst) k).mp hk).2
              (he ▸ List.mem_cons_self a _)
          rw [List.count_cons]
          simp [Ne.symm hka]

theorem maxBySnd_cons (p q : ℚ × Nat) (rest : List (ℚ × Nat)) :
    maxBySnd p (q :: rest) = maxBySnd (if q.2 > p.2 then q else p) rest := rfl

/-- Python's `max` with a key: the returned item splits the scanned list
into a strictly-smaller prefix and a no-larger suffix — the first maximal
item wins ties. -/
theorem maxBySnd_split :
    ∀ (rest : List (ℚ × Nat)) (p : ℚ × Nat),
      ∃ l1 l2, p :: rest = l1 ++ maxBySnd p rest :: l2 ∧
        (∀ q ∈ l1, q.2 < (maxBySnd p rest).2) ∧
        (∀ q ∈ l2, q.2 ≤ (maxBySnd p rest).2) := by
  intro rest
  induction rest with
  | nil =>
    intro p
    exact ⟨[], [], rfl, by simp, by simp⟩
  | cons q rest ih =>
    intro p
    rw [maxBySnd_cons]
    by_cases hq : q.2 > p.2
    · rw [if_pos hq]
      obtain ⟨l1, l2, heq, hlt, hle⟩ := ih q
      have hq_le : q.2 ≤ (maxBySnd q rest).2 := by
        cases l1 with
        | nil =>
          simp only [List.nil_append, List.cons.injEq] at heq
          exact le_of_eq (congrArg Prod.snd heq.1)
        | cons x l1t =>
          have hx : x = q := by
            have := heq
            simp only [List.cons_append, List.cons.injEq] at this
            exact this.1.symm
          exact le_of_lt (hx ▸ hlt x (List.mem_cons_self x l1t))
      refine ⟨p :: l1, l2, ?_, ?_, hle⟩
      · rw [List.cons_append, ← heq]
      · intro r hr
        rcases List.mem_cons.mp hr with rfl | hr
        · exact lt_of_lt_of_le hq hq_le
        · exact hlt r hr
    · rw [if_neg hq]
      obtain ⟨l1, l2, heq, hlt, hle⟩ := ih p
      have hqp : q.2 ≤ p.2 := Nat.le_of_not_lt hq
      cases l1 with
      | nil =>
        simp only [List.nil_append, List.cons.injEq] at heq
        obtain ⟨hp_eq, hl2⟩ := heq
        refine ⟨[], q :: rest, by rw [List.nil_append, ← hp_eq], by simp, ?_⟩
        intro r hr
        rcases List.mem_cons.mp hr with rfl | hr
        · exact le_trans hqp (hp_eq ▸ le_refl _)
        · exact hl2 ▸ hle r (hl2 ▸ hr)
      | cons x l1t =>
        simp only [List.cons_append, List.cons.injEq] at heq
        obtain ⟨hx, hrest⟩ := heq
        refine ⟨p :: q :: l1t, l2, ?_, ?_, hle⟩
        · simp only [List.cons_append]
          rw [← hrest]
        · intro r hr
          have hp_lt : p.2 < (maxBySnd p rest).2 := by
            have := hlt x (List.mem_cons_self x l1t)
            rw [← hx] at this
            exact this
          rcases List.mem_cons.mp hr with rfl | hr
          · exact hp_lt
          · rcases List.mem_cons.mp hr with rfl | hr
            · exact lt_of_le_of_lt hqp hp_lt
            · exact hlt r (List.mem_cons_of_mem x hr)

theorem map_eq_append_cons {α β : Type} (g : α → β) :
    ∀ (ks : List α) (L1 : List β) (r : β) (L2 : List β),
      ks.map g = L1 ++ r :: L2 →
      ∃ K1 k K2, ks = K1 ++ k :: K2 ∧ L1 = K1.map g ∧ r = g k ∧ L2 = K2.map g := by
  intro ks
  induction ks with
  | nil =>
    intro L1 r L2 h
    exact absurd h (by simp)
  | cons a ks ih =>
    intro L1 r L2 h
    cases L1 with
    | nil =>
      simp only [List.map_cons, List.nil_append, List.cons.injEq] at h
      exact ⟨[], a, ks, rfl, rfl, h.1.symm, h.2.symm⟩
    | cons b L1t =>
      simp only [List.map_cons, List.cons_append, List.cons.injEq] at h
      obtain ⟨hb, hrest⟩ := h
      obtain ⟨K1, k, K2, hks, hL1, hr, hL2⟩ := ih L1t r L2 hrest
      exact ⟨a :: K1, k, K2, by rw [List.cons_append, ← hks],
        by rw [List.map_cons, ← hb, ← hL1], hr, hL2⟩

/-- `analyze_font_sizes` on a document with at least one declared size:
the dictionary is the first-occurrence keys with their counts, and the
base is the first maximal-count entry of that scan. -/
theorem analyze_eq (d : Doc) (f : ℚ) (fs : List ℚ) (h : collectSizes d = f :: fs) :
    analyze_font_sizes d =
      ⟨(maxBySnd (f, (f :: fs).count f)
          ((newKeys [f] fs).map fun k => (k, (f :: fs).count k))).1,
        fs.foldl min f, fs.foldl max f, f :: fs⟩ := by
  have hfold : List.foldl bumpCount [] (f :: fs)
      = (f, (f :: fs).count f)
        :: ((newKeys [f] fs).map fun k => (k, (f :: fs).count k)) := by
    rw [foldl_bumpCount (f :: fs) [] (by simp)]
    simp only [List.map_nil, List.nil_append]
    rw [newKeys, if_neg (List.not_mem_nil f), List.map_cons]
  unfold analyze_font_sizes
  rw [h]
  simp only [hfold]

/-- C4: with no declared sizes the analyzer returns the 12-point defaults
and an empty size list; otherwise its baseline is an observed size whose
occurrence count is maximal, and among maximal-count sizes it is the one
encountered first in the left-to-right scan of paragraphs then runs. -/
theorem font_baseline_spec (d : Doc) :
    (collectSizes d = [] → analyze_font_sizes d = ⟨12, 12, 12, []⟩) ∧
    (collectSizes d ≠ [] →
      (analyze_font_sizes d).all = collectSizes d ∧
      (analyze_font_sizes d).base ∈ collectSizes d ∧
      (∀ s ∈ collectSizes d, (collectSizes d).count s
          ≤ (collectSizes d).count (analyze_font_sizes d).base) ∧
      (∀ s ∈ collectSizes d, (collectSizes d).count s
            = (collectSizes d).count (analyze_font_sizes d).base →
          (collectSizes d).indexOf (analyze_font_sizes d).base
            ≤ (collectSizes d).indexOf s)) := by
  constructor
  · intro h
    unfold analyze_font_sizes
    rw [h]
  · intro hne
    obtain ⟨f, fs, hsizes⟩ := List.exists_cons_of_ne_nil hne
    have hana := analyze_eq d f fs hsizes
    obtain ⟨L1, L2, heq, hlt, hle⟩ :=
      maxBySnd_split ((newKeys [f] fs).map fun k => (k, (f :: fs).count k))
        (f, (f :: fs).count f)
    have hks0 : (newKeys [] (f :: fs)).map (fun k => (k, (f :: fs).count k))
        = (f, (f :: fs).count f)
          :: (newKeys [f] fs).map fun k => (k, (f :: fs).count k) := by
      rw [newKeys, if_neg (List.not_mem_nil f), List.map_cons]
    have hsplit : (newKeys [] (f :: fs)).map (fun k => (k, (f :: fs).count k))
        = L1 ++ maxBySnd (f, (f :: fs).count f)
            ((newKeys [f] fs).map fun k => (k, (f :: fs).count k)) :: L2 := by
      rw [hks0]; exact heq
    obtain ⟨K1, k, K2, hKS, hL1, hr, hL2⟩ :=
      map_eq_append_cons (fun k => (k, (f :: fs).count k)) _ L1 _ L2 hsplit
    have hbase : (analyze_font_sizes d).base = k := by
      rw [hana]
      show (maxBySnd _ _).1 = k
      rw [hr]
    have hkmem : k ∈ newKeys [] (f :: fs) := by
      rw [hKS]
      exact List.mem_append_right _ (List.mem_cons_self k K2)
    have hkin : k ∈ f :: fs := ((mem_newKeys (f :: fs) [] k).mp hkmem).1
    have hcount_r : (maxBySnd (f, (f :: fs).count f)
        ((newKeys [f] fs).map fun k => (k, (f :: fs).count k))).2
          = (f :: fs).count k := by rw [hr]
    have hmax : ∀ s ∈ f :: fs, (f :: fs).count s ≤ (f :: fs).count k := by
      intro s hs
      have hsK : s ∈ newKeys [] (f :: fs) :=
        (mem_newKeys _ _ _).mpr ⟨hs, List.not_mem_nil s⟩
      have hgs : ((fun k => (k, (f :: fs).count k)) s) ∈ L1 ++ maxBySnd
          (f, (f :: fs).count f)
          ((newKeys [f] fs).map fun k => (k, (f :: fs).count k)) :: L2 := by
        rw [← hsplit]
        exact List.mem_map_of_mem _ hsK
      rcases List.mem_append.mp hgs with hin | hin
      · have h1 := hlt _ hin
        rw [hcount_r] at h1
        exact le_of_lt h1
      · rcases List.mem_cons.mp hin with heq2 | hin
        · have h1 := congrArg Prod.snd heq2
          rw [hcount_r] at h1
          exact le_of_eq h1
        · have h1 := hle _ hin
          rw [hcount_r] at h1
          exact h1
    have htie : ∀ s ∈ f :: fs,
        (f :: fs).count s = (f :: fs).count k →
          (f :: fs).indexOf k ≤ (f :: fs).indexOf s := by
      intro s hs hc
      have hsK : s ∈ newKeys [] (f :: fs) :=
        (mem_newKeys _ _ _).mpr ⟨hs, List.not_mem_nil s⟩
      rw [hKS] at hsK
      rcases List.mem_append.mp hsK with hin | hin
      · exfalso
        have hgs : (s, (f :: fs).count s) ∈ L1 := by
          rw [hL1]
          exact List.mem_map_of_mem _ hin
        have h1 := hlt _ hgs
        rw [hcount_r] at h1
        simp only at h1
        rw [hc] at h1
        exact lt_irrefl _ h1
      · rcases List.mem_cons.mp hin with rfl | hin
        · exact le_refl _
        · have hpw := newKeys_pairwise (f :: fs) ([] : List ℚ)
          rw [hKS] at hpw
          have h2 := (List.pairwise_append.mp hpw).2.1
          exact le_of_lt ((List.pairwise_cons.mp h2).1 s hin)
    refine ⟨by rw [hana, hsizes], ?_, ?_, ?_⟩
    · rw [hsizes, hbase]; exact hkin
    · rw [hsizes, hbase]; exact hmax
    · rw [hsizes, hbase]; exact htie

/-- Concrete instance for `font_baseline_spec`: sizes `[14, 12, 14, 12]`
scanned left to right give baseline 14 — maximal count, first encountered
on the tie. -/
theorem font_baseline_spec_witness :
    analyze_font_sizes
        ⟨[⟨[], [⟨[], false, some 14⟩, ⟨[], false, some 12⟩,
            ⟨[], false, some 14⟩, ⟨[], false, some 12⟩], Alignment.unspecified⟩], []⟩
      = ⟨14, 12, 14, [14, 12, 14, 12]⟩ ∧
    collectSizes
        ⟨[⟨[], [⟨[], false, some 14⟩, ⟨[], false, some 12⟩,
            ⟨[], false, some 14⟩, ⟨[], false, some 12⟩], Alignment.unspecified⟩], []⟩
      ≠ [] ∧
    (analyze_font_sizes
        ⟨[⟨[], [⟨[], false, some 14⟩, ⟨[], false, some 12⟩,
            ⟨[], false, some 14⟩, ⟨[], false, some 12⟩], Alignment.unspecified⟩], []⟩).base
      ∈ collectSizes
        ⟨[⟨[], [⟨[], false, some 14⟩, ⟨[], false, some 12⟩,
            ⟨[], false, some 14⟩, ⟨[], false, some 12⟩], Alignment.unspecified⟩], []⟩ := by
  refine ⟨by with_unfolding_all decide, by with_unfolding_all decide, ?_⟩
  exact ((font_baseline_spec _).2 (by with_unfolding_all decide)).2.1

end WordParser
